import Mathlib

/-!
Verification development for the 2D geospatial index and journal-recovery core
(`db/geo/2d.cpp`, `db/dur_recover.cpp`).

Shallow embedding conventions:
* `double` values are modelled as rationals (`ℚ`); real-number arithmetic is
  exact, floating-point rounding is out of scope.
* C++ `unsigned`/`int` become `ℕ`/`ℤ`, with explicit two's-complement wrapping
  where an overflow is reachable.
* Leading underscores of C++ member names are dropped (`_min` becomes `min`).
* C++ `assert`/`uassert` preconditions are carried as theorem hypotheses when
  they always hold at the modelled call sites, and as explicit error results
  when a claim is about them.
-/

namespace Mongo2d

/-- Planar point, from `Point` in `2d.cpp` / `core.h` (fields `_x`, `_y`). -/
structure Point where
  x : ℚ
  y : ℚ
deriving DecidableEq

/-- Axis-aligned box, from `Box` in `2d.cpp` (fields `_min`, `_max`). -/
structure Box where
  bmin : Point
  bmax : Point
deriving DecidableEq

/-- From `Box::between` in `2d.cpp`: `val + fudge >= min && val <= max + fudge`. -/
def Box.between (bdmin bdmax val fudge : ℚ) : Bool :=
  bdmin ≤ val + fudge && val ≤ bdmax + fudge

/-- From `Box::onBoundary(double,double,double)` in `2d.cpp`. -/
def Box.onBoundaryVal (bound val fudge : ℚ) : Bool :=
  bound - fudge ≤ val && val ≤ bound + fudge

/-- From `Box::mid` in `2d.cpp`.  The C++ returns a `bool` plus an out
parameter `res`; we return `none` for the `false` case.  The two `assert`s
(`amin <= amax`, `bmin <= bmax`) are carried as hypotheses of the theorems. -/
def Box.mid (amin amax bmin bmax : ℚ) (useMin : Bool) : Option ℚ :=
  if amin < bmin then
    if amax < bmin then none
    else some (if useMin then bmin else amax)
  else if amin > bmax then none
  else some (if useMin then amin else bmax)

/-- From `Box::area` in `2d.cpp`. -/
def Box.area (b : Box) : ℚ :=
  (b.bmax.x - b.bmin.x) * (b.bmax.y - b.bmin.y)

/-- From `Box::intersects` in `2d.cpp`: four `mid` calls build the bound box,
any failure returns `0`, otherwise `intersection.area / ((area+other.area)/2)`. -/
def Box.intersects (b other : Box) : ℚ :=
  match Box.mid b.bmin.x b.bmax.x other.bmin.x other.bmax.x true,
        Box.mid b.bmin.x b.bmax.x other.bmin.x other.bmax.x false,
        Box.mid b.bmin.y b.bmax.y other.bmin.y other.bmax.y true,
        Box.mid b.bmin.y b.bmax.y other.bmin.y other.bmax.y false with
  | some x0, some x1, some y0, some y1 =>
      (Box.mk (Point.mk x0 y0) (Point.mk x1 y1)).area / ((b.area + other.area) / 2)
  | _, _, _, _ => 0

/-- From `Box::inside(double,double,double)` in `2d.cpp`. -/
def Box.insideXY (b : Box) (x y fudge : ℚ) : Bool :=
  Box.between b.bmin.x b.bmax.x x fudge && Box.between b.bmin.y b.bmax.y y fudge

/-- From `Box::inside(Point,double)` in `2d.cpp`. -/
def Box.inside (b : Box) (p : Point) (fudge : ℚ) : Bool :=
  b.insideXY p.x p.y fudge

/-- A box is disjoint from another when they are separated on some axis. -/
def Box.disjoint (b other : Box) : Prop :=
  b.bmax.x < other.bmin.x ∨ other.bmax.x < b.bmin.x ∨
  b.bmax.y < other.bmin.y ∨ other.bmax.y < b.bmin.y

/-- A box is well formed when `min ≤ max` componentwise (the `assert`s of
`Box::mid`). -/
def Box.wf (b : Box) : Prop :=
  b.bmin.x ≤ b.bmax.x ∧ b.bmin.y ≤ b.bmax.y

/-- The error box built at the top of `Polygon::contains` in `2d.cpp`. -/
def fudgeBox (p : Point) (fudge : ℚ) : Box :=
  Box.mk (Point.mk (p.x - fudge) (p.y - fudge)) (Point.mk (p.x + fudge) (p.y + fudge))

/-- The edge-proximity test of one loop iteration of `Polygon::contains`: the
outer guard `fudge > 0 && ...` followed by the four groups of early
`return 0` checks (vertex inside the fudge box, top/bottom intersections for
non-horizontal edges, right/left intersections for non-vertical edges). -/
def fudgeHit (p : Point) (fudge : ℚ) (p1 p2 : Point) : Prop :=
  0 < fudge ∧
  (fudgeBox p fudge).bmin.y ≤ max p1.y p2.y ∧
  min p1.y p2.y ≤ (fudgeBox p fudge).bmax.y ∧
  (fudgeBox p fudge).bmin.x ≤ max p1.x p2.x ∧
  min p1.x p2.x ≤ (fudgeBox p fudge).bmax.x ∧
  ( (fudgeBox p fudge).inside p1 0 = true ∨
    (fudgeBox p fudge).inside p2 0 = true ∨
    (p1.y ≠ p2.y ∧
      ( ((fudgeBox p fudge).bmin.x ≤
            ((fudgeBox p fudge).bmax.y - p1.y) * ((p2.x - p1.x) / (p2.y - p1.y)) + p1.x ∧
          ((fudgeBox p fudge).bmax.y - p1.y) * ((p2.x - p1.x) / (p2.y - p1.y)) + p1.x ≤
            (fudgeBox p fudge).bmax.x) ∨
        ((fudgeBox p fudge).bmin.x ≤
            ((fudgeBox p fudge).bmin.y - p1.y) * ((p2.x - p1.x) / (p2.y - p1.y)) + p1.x ∧
          ((fudgeBox p fudge).bmin.y - p1.y) * ((p2.x - p1.x) / (p2.y - p1.y)) + p1.x ≤
            (fudgeBox p fudge).bmax.x) )) ∨
    (p1.x ≠ p2.x ∧
      ( ((fudgeBox p fudge).bmin.y ≤
            (p1.x - (fudgeBox p fudge).bmax.x) * ((p2.y - p1.y) / (p2.x - p1.x)) + p1.y ∧
          (p1.x - (fudgeBox p fudge).bmax.x) * ((p2.y - p1.y) / (p2.x - p1.x)) + p1.y ≤
            (fudgeBox p fudge).bmax.y) ∨
        ((fudgeBox p fudge).bmin.y ≤
            (p1.x - (fudgeBox p fudge).bmin.x) * ((p2.y - p1.y) / (p2.x - p1.x)) + p1.y ∧
          (p1.x - (fudgeBox p fudge).bmin.x) * ((p2.y - p1.y) / (p2.x - p1.x)) + p1.y ≤
            (fudgeBox p fudge).bmax.y) )) )

instance (p : Point) (fudge : ℚ) (p1 p2 : Point) : Decidable (fudgeHit p fudge p1 p2) := by
  unfold fudgeHit; infer_instance

/-- The ray-casting counter-increment condition of one loop iteration of
`Polygon::contains` (the nested `if` cascade guarding `counter++`). -/
def crossing (p p1 p2 : Point) : Prop :=
  min p1.y p2.y < p.y ∧ p.y ≤ max p1.y p2.y ∧ p.x ≤ max p1.x p2.x ∧ p1.y ≠ p2.y ∧
    (p1.x = p2.x ∨ p.x ≤ (p.y - p1.y) * (p2.x - p1.x) / (p2.y - p1.y) + p1.x)

instance (p p1 p2 : Point) : Decidable (crossing p p1 p2) := by
  unfold crossing; infer_instance

/-- Polygon, from `Polygon` in `2d.cpp` (field `_points`). -/
structure Polygon where
  points : List Point

/-- The edge sequence traversed by the loop of `Polygon::contains`:
`(points[0], points[1]), …, (points[n-1], points[0])`. -/
def Polygon.edges (poly : Polygon) : List (Point × Point) :=
  poly.points.zip (poly.points.rotate 1)

/-- The loop of `Polygon::contains`: an edge-proximity hit returns `0`
immediately, otherwise the crossing counter is accumulated and the final
result is `-1` for an even count and `+1` for an odd count. -/
def Polygon.containsGo (p : Point) (fudge : ℚ) :
    List (Point × Point) → ℕ → ℤ
  | [], counter => if counter % 2 = 0 then -1 else 1
  | e :: es, counter =>
    if fudgeHit p fudge e.1 e.2 then 0
    else Polygon.containsGo p fudge es (counter + if crossing p e.1 e.2 then 1 else 0)

/-- From `Polygon::contains(const Point&, double)` in `2d.cpp`. -/
def Polygon.containsFudge (poly : Polygon) (p : Point) (fudge : ℚ) : ℤ :=
  Polygon.containsGo p fudge poly.edges 0

/-- The number of edges whose crossing test fires (the final value of
`counter` when no fudge check interrupts the loop). -/
def Polygon.crossCount (poly : Polygon) (p : Point) : ℕ :=
  poly.edges.countP (fun e => decide (crossing p e.1 e.2))

/-- Index parameters of `Geo2dType` in `2d.cpp` (fields `_min`, `_max`).
Only the coordinate interval is needed by the quantizer. -/
structure Geo2dType where
  gmin : ℚ
  gmax : ℚ

/-- From the `Geo2dType` constructor: `_scaling = numBuckets / (_max - _min)`
with `numBuckets = 1024 * 1024 * 1024 * 4.0 = 2^32` (exact as a double). -/
def Geo2dType.scaling (g : Geo2dType) : ℚ :=
  2 ^ 32 / (g.gmax - g.gmin)

/-- From `Geo2dType::_convert`: after the range `uassert`, `in -= _min` and the
cast `(unsigned)(in * _scaling)`, which truncates a nonnegative value toward
zero, i.e. takes the floor. -/
def Geo2dType.convert (g : Geo2dType) (v : ℚ) : ℤ :=
  ⌊(v - g.gmin) * g.scaling⌋

/-- From `Geo2dType::_unconvert`: `x = in; x /= _scaling; x += _min`. -/
def Geo2dType.unconvert (g : Geo2dType) (u : ℤ) : ℚ :=
  (u : ℚ) / g.scaling + g.gmin

/-- The accumulation loop of `GeoHopper::exactDistances` in `2d.cpp`, over the
list of per-location distances (`minDistance` starts at the sentinel `-1`;
a location is considered only when it is within `maxDistance`, and the
running minimum is replaced when `minDistance < 0 || minDistance > d`).
`Point::distance` / `spheredist_deg` / `Point::distanceWithin` live in
`core.h` (not part of the sources here); they are abstracted into the
per-location distance values, with `distanceWithin p R` read as
`distance ≤ R` per the spec (§4.3, §4.7 "within R (inclusive)"). -/
def exactLoop (maxD : ℚ) : List ℚ → ℚ → ℚ
  | [], m => m
  | d :: ds, m =>
    if d ≤ maxD then
      if m < 0 ∨ d < m then exactLoop maxD ds d else exactLoop maxD ds m
    else exactLoop maxD ds m

/-- From `GeoHopper::exactDistances`: the resulting minimum distance over the
document's locations, `none` when no location is within `maxDistance`
(`minDistance` stays negative and no point is inserted). -/
def exactDistances {α : Type} (dist : α → ℚ) (maxD : ℚ) (locs : List α) : Option ℚ :=
  if 0 ≤ exactLoop maxD (locs.map dist) (-1) then some (exactLoop maxD (locs.map dist) (-1))
  else none

/-- Ordered insertion into `GeoHopper::Holder` (`multiset<GeoPoint>` keyed by
`_exactDistance`): an equal key is inserted after the existing ones. -/
def holderInsert (d : ℚ) : List ℚ → List ℚ
  | [] => [d]
  | x :: xs => if d < x then d :: x :: xs else x :: holderInsert d xs

/-- A candidate reaching `GeoHopper::addSpecific`: the `newDoc` flag and the
distances from the query center to each location of the document. -/
structure Candidate where
  newDoc : Bool
  dists : List ℚ

/-- From `GeoHopper::addSpecific` in `2d.cpp`: drop when `!newDoc`; otherwise
`exactDistances` inserts the document's minimum distance into the holder when
some location is within range, then the `size() - _max` largest elements are
erased from the end of the multiset (equivalently, the first `_max` elements
of the sorted holder are kept).  The `_farthest` bookkeeping does not affect
the held result set and is not modelled. -/
def GeoHopper.addSpecific (maxN : ℕ) (maxD : ℚ) (points : List ℚ) (c : Candidate) : List ℚ :=
  if c.newDoc then
    match exactDistances id maxD c.dists with
    | none => points
    | some m => (holderInsert m points).take maxN
  else points

/-- The holder contents after a stream of candidates has been offered to the
hopper (the set iterated by `GeoSearchCursor`, in multiset order). -/
def GeoHopper.run (maxN : ℕ) (maxD : ℚ) (cs : List Candidate) : List ℚ :=
  cs.foldl (GeoHopper.addSpecific maxN maxD) []

/-- A candidate qualifies when it is a new document with some location within
`maxDistance`. -/
def qualifies (maxD : ℚ) (c : Candidate) : Prop :=
  c.newDoc = true ∧ ∃ d ∈ c.dists, d ≤ maxD

instance (maxD : ℚ) (c : Candidate) : Decidable (qualifies maxD c) := by
  unfold qualifies; infer_instance

/-- A key node as seen by `GeoAccumulator::add`: the identity of the key bytes
(`node.key.objdata()`, a pointer compared by address in `_seen`) and the
record locator (`node.recordLoc`). -/
structure KeyNode where
  keyId : ℕ
  recordLoc : ℕ
deriving DecidableEq

/-- Accumulator state from `GeoAccumulator` plus the emission slots of
`GeoBrowse` (`_cur`/`_stack`, concatenated in arrival order). -/
structure AccState where
  seen : List (ℕ × ℕ)
  matched : List (ℕ × Bool)
  emitted : List KeyNode
deriving DecidableEq

/-- From `GeoAccumulator::add` combined with `GeoBrowse::addSpecific` in
`2d.cpp`: dedup on `(key bytes, recordLoc)`, the distance check, the cached
per-locator matcher result (`_matched`), and the `newDoc` flag; a candidate
with `newDoc == false` is dropped by `GeoBrowse::addSpecific`, an accepted
one is placed into `_cur`/`_stack` (modelled as appending to `emitted`). -/
def GeoAccumulator.add (checkDist matchPred : KeyNode → Bool) (st : AccState)
    (n : KeyNode) : AccState :=
  if (n.keyId, n.recordLoc) ∈ st.seen then st
  else
    let st1 : AccState := ⟨(n.keyId, n.recordLoc) :: st.seen, st.matched, st.emitted⟩
    if checkDist n then
      match st1.matched.lookup n.recordLoc with
      | none =>
        if matchPred n then
          ⟨st1.seen, (n.recordLoc, true) :: st1.matched, st1.emitted ++ [n]⟩
        else
          ⟨st1.seen, (n.recordLoc, false) :: st1.matched, st1.emitted⟩
      | some true => st1
      | some false => st1
    else st1

/-- The accumulator state after a browse has offered a stream of key nodes. -/
def GeoAccumulator.run (checkDist matchPred : KeyNode → Bool) (ns : List KeyNode) : AccState :=
  ns.foldl (GeoAccumulator.add checkDist matchPred) ⟨[], [], []⟩

/-- Two's-complement wrap of a 32-bit signed value (the effect of an
overflowing `int` operation on the modelled target). -/
def int32wrap (x : ℤ) : ℤ :=
  (x + 2 ^ 31) % 2 ^ 32 - 2 ^ 31

/-- From the head of `Geo2dType::newCursor` in `2d.cpp`:
`if (numWanted < 0) numWanted = numWanted * -1; else if (numWanted == 0)
numWanted = 100;`.  The negation is an `int` multiplication, which wraps at
`-2^31` (signed overflow, modelled as two's complement). -/
def newCursorNumWanted (numWanted : ℤ) : ℤ :=
  if numWanted < 0 then int32wrap (numWanted * (-1))
  else if numWanted = 0 then 100
  else numWanted

end Mongo2d

namespace MongoDur

/-- Journal file contents as a byte list (the memory-mapped `j._<n>` file). -/
abbrev Bytes := List ℕ

/-- Little-endian 32-bit read at a byte offset (`BufReader::read` of an
`unsigned`); `none` is the `BufReader::eof` case. -/
def readU32 (data : Bytes) (ofs : ℕ) : Option ℕ :=
  match data.get? ofs, data.get? (ofs + 1), data.get? (ofs + 2), data.get? (ofs + 3) with
  | some b0, some b1, some b2, some b3 =>
    some (b0 + 256 * b1 + 65536 * b2 + 16777216 * b3)
  | _, _, _, _ => none

/-- The bytes in offset range `[a, b)`. -/
def slice (data : Bytes) (a b : ℕ) : Bytes :=
  (data.take b).drop a

/-- Little-endian encoding of a 32-bit word (used to build test buffers). -/
def u32bytes (n : ℕ) : Bytes :=
  [n % 256, n / 256 % 256, n / 65536 % 256, n / 16777216 % 256]

/-- Modelled from the spec: `JHeader` is a fixed-size file header block
(`dur_journalformat.h` is not part of the sources here); its size is an
opaque constant, kept small in the model. -/
def JHeaderSize : ℕ := 8

/-- Modelled from the spec: `JSectHeader` is a fixed-size section header
block skipped by the iterator; its size is an opaque constant. -/
def SectHeaderSize : ℕ := 8

/-- Modelled from the spec: `JSectFooter` is `{ sentinel (4 bytes); hash
(16 bytes); reserved (8 bytes); magic (4 bytes) }`, total 32 bytes, matching
`_br.skip(sizeof(JSectFooter) - 4)` after the 4-byte sentinel was read. -/
def FooterSize : ℕ := 32

/-- Modelled from the spec: sections are aligned to a power-of-two boundary
(`Alignment`); kept small in the model. -/
def Alignment : ℕ := 16

/-- Modelled from the spec: `Namespace::MaxNsLen`. -/
def MaxNsLen : ℕ := 128

/-- Modelled from the spec: the reserved `lenOrOpCode` values.  Only their
distinctness and the ordering `OpCode_ObjAppend` maximal-below-the-others
matter to `dur_recover.cpp` (`assert(lenOrOpCode <= JEntry::OpCode_ObjAppend)`
after the `switch` consumed the four larger codes). -/
def OpCode_Footer : ℕ := 0xffffffff

/-- Modelled from the spec: see `OpCode_Footer`. -/
def OpCode_DbContext : ℕ := 0xfffffffe

/-- Modelled from the spec: see `OpCode_Footer`. -/
def OpCode_FileCreated : ℕ := 0xfffffffd

/-- Modelled from the spec: see `OpCode_Footer`. -/
def OpCode_DropDb : ℕ := 0xfffffffc

/-- Modelled from the spec: see `OpCode_Footer`. -/
def OpCode_ObjAppend : ℕ := 0xfffffffb

/-- The byte string `"local"` (the database name forced by
`JEntry::isLocalDbContext`). -/
def localDbName : Bytes := [108, 111, 99, 97, 108]

/-- A parsed journal entry (`ParsedJournalEntry` in `dur_recover.cpp`): a
basic write (`JEntry` + payload), an object append (`JObjAppend`), or a
`DurOp` (FileCreated / DropDb; `durop.cpp` is not part of the sources here,
so its body is modelled from the spec as an opaque payload). -/
inductive ParsedEntry where
  | basicWrite (dbName : Option Bytes) (fileNo : ℕ) (isLocal : Bool)
      (writeOfs : ℕ) (payload : Bytes)
  | objAppend (dbName : Option Bytes) (dstFileNo dstOfs srcFileNo srcOfs len : ℕ)
  | durOp (opcode : ℕ) (payload : Bytes)
deriving DecidableEq

/-- State of `JournalIterator`: the mapped buffer, the `BufReader` position,
`_sectHead` (offset of the current section header, `none` between sections)
and the sticky `_lastDbName`. -/
structure IterState where
  data : Bytes
  ofs : ℕ
  sectHead : Option ℕ
  lastDbName : Option Bytes
deriving DecidableEq

/-- Result of one `JournalIterator::next` call: an entry, a successful end of
section (`return false`), a `BufReader::eof` throw, or an assertion failure
(`massert`/`assert`) with its code. -/
inductive NextResult where
  | entry (e : ParsedEntry) (s : IterState)
  | endSection (s : IterState)
  | eof
  | err (code : ℕ)
deriving DecidableEq

/-- Offset of the first `0` byte in a list, if any (`strnlen` + the NUL
check of the `OpCode_DbContext` branch). -/
def findNul : Bytes → Option ℕ
  | [] => none
  | b :: bs => if b = 0 then some 0 else (findNul bs).map (· + 1)

/-- Round `x` up to the next multiple of `a` (`BufReader::align`). -/
def alignUp (a x : ℕ) : ℕ :=
  a * ((x + a - 1) / a)

/-- The tail block of `JournalIterator::next` (after the `switch` falls
through): the `assert(lenOrOpCode && lenOrOpCode <= OpCode_ObjAppend)`
(modelled as error code `0`, a bare `assert`), then either a `JObjAppend`
record `{sentinel, dstFileNo, dstOfs, srcFileNo, srcOfs, len}` or a basic
`JEntry` `{len, ofs, fileNo}` followed by `len` payload bytes.  `q` is the
offset of the already-read word `w` (the `_br.rewind(4)` target);
`JEntry::_fileNo`'s high bit is the `LocalDbBit`. -/
def nextTail (data : Bytes) (h0 : ℕ) (lastDb : Option Bytes) (w q : ℕ) : NextResult :=
  if w = 0 ∨ OpCode_ObjAppend < w then .err 0
  else if w = OpCode_ObjAppend then
    if data.length < q + 24 then .eof
    else
      match readU32 data (q + 4), readU32 data (q + 8), readU32 data (q + 12),
            readU32 data (q + 16), readU32 data (q + 20) with
      | some dstF, some dstO, some srcF, some srcO, some len =>
        .entry (.objAppend lastDb dstF dstO srcF srcO len)
          (IterState.mk data (q + 24) (some h0) lastDb)
      | _, _, _, _, _ => .eof
  else
    if data.length < q + 12 + w then .eof
    else
      match readU32 data (q + 4), readU32 data (q + 8) with
      | some o, some raw =>
        .entry (.basicWrite (if 2 ^ 31 ≤ raw then some localDbName else lastDb)
            (raw % 2 ^ 31) (decide (2 ^ 31 ≤ raw)) o (slice data (q + 12) (q + 12 + w)))
          (IterState.mk data (q + 12 + w) (some h0) lastDb)
      | _, _ => .eof

/-- From `JournalIterator::next` in `dur_recover.cpp`.  When `_sectHead` is
unset it is pinned to the current position and `sizeof(JSectHeader)` bytes
are skipped; then `lenOrOpCode` is read and dispatched.  The footer branch
rewinds to the footer start `q`, recomputes the digest over `[sectHead, q)`
and compares it with the 16 stored hash bytes at `[q+4, q+20)` (a stored
hash extending past the buffer is modelled as a truncated byte list, which a
16-byte digest never equals — the C++ `memcmp` would read unmapped garbage
there); on success it skips the rest of the footer, aligns, and clears
`_sectHead` — the sticky `_lastDbName` is left untouched.  The `DbContext`
branch reads the NUL-terminated name (`massert 13533` when no NUL is found
within the limit) and falls through to the tail block with the next word. -/
def nextCore (md5 : Bytes → Bytes) (data : Bytes) (h0 ofs0 : ℕ) (db : Option Bytes) : NextResult :=
  match readU32 data ofs0 with
  | none => .eof
  | some w =>
    if w = OpCode_Footer then
      if md5 (slice data h0 ofs0) ≠ slice data (ofs0 + 4) (ofs0 + 20) then .err 13594
      else if data.length < ofs0 + FooterSize then .eof
      else if data.length < alignUp Alignment (ofs0 + FooterSize) then .eof
      else .endSection
        (IterState.mk data (alignUp Alignment (ofs0 + FooterSize)) none db)
    else if w = OpCode_FileCreated ∨ w = OpCode_DropDb then
      match readU32 data (ofs0 + 4) with
      | none => .eof
      | some len =>
        if data.length < ofs0 + 8 + len then .eof
        else .entry (.durOp w (slice data (ofs0 + 8) (ofs0 + 8 + len)))
          (IterState.mk data (ofs0 + 8 + len) (some h0) db)
    else if w = OpCode_DbContext then
      match findNul (slice data (ofs0 + 4) (ofs0 + 4 + min MaxNsLen (data.length - (ofs0 + 4)))) with
      | none => .err 13533
      | some len =>
        match readU32 data (ofs0 + 4 + len + 1) with
        | none => .eof
        | some w2 =>
          nextTail data h0 (some (slice data (ofs0 + 4) (ofs0 + 4 + len))) w2 (ofs0 + 4 + len + 1)
    else nextTail data h0 db w ofs0

/-- Dispatch of `JournalIterator::next` on `_sectHead`: when unset, the
section header starts at the current position and `sizeof(JSectHeader)`
bytes are skipped before the first `lenOrOpCode` read. -/
def next (md5 : Bytes → Bytes) (s : IterState) : NextResult :=
  match s.sectHead with
  | none => nextCore md5 s.data s.ofs (s.ofs + SectHeaderSize) s.lastDbName
  | some h => nextCore md5 s.data h s.ofs s.lastDbName

/-- Outcome of `RecoveryJob::processBuffer` on one journal file: clean end
(`atEof` after a section), abrupt end (`BufReader::eof` caught: `return
true`), or an uncaught assertion.  Each carries the complete sections already
passed to `applyEntries` before the outcome was reached.  `headerEof` is a
`BufReader::eof` thrown by the `JournalIterator` constructor, which sits
*outside* the `try` block and therefore propagates uncaught. -/
inductive FileOutcome where
  | ok (sections : List (List ParsedEntry))
  | abrupt (sections : List (List ParsedEntry))
  | fail (code : ℕ) (sections : List (List ParsedEntry))
  | headerEof
  | fuelOut
deriving DecidableEq

/-- The nested section/entry loops of `RecoveryJob::processBuffer`: collect
entries until `next` returns false, apply the section, stop cleanly at
`atEof`, convert a caught `BufReader::eof` into the abrupt outcome (current
incomplete section discarded), propagate assertion errors.  Structured on
fuel; `runSections_fuel_sufficient` shows the fuel passed by `processBuffer`
can never run out. -/
def runSections (md5 : Bytes → Bytes) : ℕ → IterState →
    List (List ParsedEntry) → List ParsedEntry → FileOutcome
  | 0, _, _, _ => .fuelOut
  | fuel + 1, s, done, cur =>
    match next md5 s with
    | .entry e s2 => runSections md5 fuel s2 done (cur ++ [e])
    | .endSection s2 =>
      if s2.ofs = s2.data.length then .ok (done ++ [cur])
      else runSections md5 fuel s2 (done ++ [cur]) []
    | .eof => .abrupt done
    | .err c => .fail c done

/-- Modelled from the spec: the two validity bytes checked by
`JHeader::versionOk` (`uassert 13536`); the actual layout lives in
`dur_journalformat.h`, not in the sources here. -/
def JHeaderVersion : Bytes := [65, 65]

/-- Modelled from the spec: the magic bytes checked by `JHeader::valid`
(`uassert 13537`). -/
def JHeaderMagic : Bytes := [106, 10]

/-- From `RecoveryJob::processBuffer` plus the `JournalIterator` constructor:
read/skip the file header (a short file throws `BufReader::eof` outside the
`try`), check the version (`13536`) then validity (`13537`), then run the
section loop. -/
def processBuffer (md5 : Bytes → Bytes) (data : Bytes) : FileOutcome :=
  if data.length < JHeaderSize then .headerEof
  else if slice data 2 4 ≠ JHeaderVersion then .fail 13536 []
  else if slice data 0 2 ≠ JHeaderMagic then .fail 13537 []
  else runSections md5 (data.length + 1) (IterState.mk data JHeaderSize none none) [] []

/-- Overall result of `RecoveryJob::go`: success (with every applied section,
in order), the `uasserted(13535, "recover abrupt journal file end")`, an
uncaught `BufReader::eof`, or another propagated assertion code. -/
inductive RecoverResult where
  | ok (sections : List (List ParsedEntry))
  | abruptErr
  | uncaughtEof
  | failCode (c : ℕ)
deriving DecidableEq

/-- The loop of `RecoveryJob::go`: process each file in order; an abrupt end
raises `13535` unless the file is the last one (`i + 1 < files.size()`);
other exceptions propagate immediately. -/
def RecoveryJob.goAux (md5 : Bytes → Bytes) :
    List Bytes → List (List ParsedEntry) → RecoverResult
  | [], acc => .ok acc
  | f :: rest, acc =>
    match processBuffer md5 f with
    | .ok secs => RecoveryJob.goAux md5 rest (acc ++ secs)
    | .abrupt secs =>
      if rest = [] then RecoveryJob.goAux md5 rest (acc ++ secs) else .abruptErr
    | .fail c _ => .failCode c
    | .headerEof => .uncaughtEof
    | .fuelOut => .failCode 99999

/-- From `RecoveryJob::go` in `dur_recover.cpp` (with `DurScanOnly` off). -/
def RecoveryJob.go (md5 : Bytes → Bytes) (files : List Bytes) : RecoverResult :=
  RecoveryJob.goAux md5 files []

/-- The complete sections a file contributes (those passed to
`applyEntries`). -/
def fileSections (md5 : Bytes → Bytes) (f : Bytes) : List (List ParsedEntry) :=
  match processBuffer md5 f with
  | .ok secs => secs
  | .abrupt secs => secs
  | .fail _ secs => secs
  | .headerEof => []
  | .fuelOut => []

/-- A file outcome with no propagating exception (clean or abrupt end). -/
def FileOutcome.isClean : FileOutcome → Bool
  | .ok _ => true
  | .abrupt _ => true
  | _ => false

/-- The abrupt-end outcome (`processBuffer` returned `true`). -/
def FileOutcome.isAbrupt : FileOutcome → Bool
  | .abrupt _ => true
  | _ => false

/-- A fixed dummy digest function for concrete runs: every buffer hashes to
sixteen zero bytes. -/
def md5zero : Bytes → Bytes :=
  fun _ => List.replicate 16 0

/-- A length-sensitive digest function for concrete runs: the buffer length
followed by fifteen zero bytes. -/
def md5len : Bytes → Bytes :=
  fun b => b.length :: List.replicate 15 0

/-- A valid modelled `JHeader`. -/
def jhead : Bytes := [106, 10, 65, 65, 0, 0, 0, 0]

/-- Section-header filler bytes. -/
def sectPad : Bytes := List.replicate 8 0

/-- A footer whose stored hash is sixteen zero bytes (matching `md5zero`). -/
def footerZero : Bytes :=
  u32bytes OpCode_Footer ++ List.replicate 16 0 ++ List.replicate 12 0

/-- A one-section journal file with no entries, ending cleanly at a section
boundary. -/
def fileOneSection : Bytes := jhead ++ sectPad ++ footerZero

/-- A journal file that ends abruptly: the section header is truncated. -/
def fileAbrupt : Bytes := jhead ++ [0, 0]

/-- A journal file whose modelled version bytes are wrong (`uassert 13536`). -/
def fileBadHeader : Bytes := [106, 10, 66, 65, 0, 0, 0, 0]

/-- A `JDbContext` entry for the database name `"ab"`. -/
def dbCtxBytes : Bytes := u32bytes OpCode_DbContext ++ [97, 98, 0]

/-- A basic-write `JEntry` of length 1 at file 0, offset 0, payload `[42]`. -/
def bw1bytes : Bytes := u32bytes 1 ++ u32bytes 0 ++ u32bytes 0 ++ [42]

/-- A two-section journal file: section one sets the db context `"ab"` and
performs a basic write; section two performs a basic write with no db
context of its own. -/
def fileTwoSections : Bytes :=
  jhead ++ sectPad ++ dbCtxBytes ++ bw1bytes ++ footerZero ++ List.replicate 12 0 ++
  sectPad ++ bw1bytes ++ footerZero ++ List.replicate 11 0

/-- A one-section journal file whose stored hash is the `md5len` digest of
the code's hashed range `[8, 16)` (the byte `8` followed by fifteen zeros). -/
def fileC5 : Bytes :=
  jhead ++ sectPad ++ u32bytes OpCode_Footer ++ (8 :: List.replicate 15 0) ++
  List.replicate 12 0

end MongoDur

namespace Mongo2d

/-- C7: for every coordinate value `v` with `min ≤ v < max`, quantize
computes `floor((v - min) * scaling)`, dequantize computes `u / scaling +
min`, and the round trip satisfies
`dequantize (quantize v) ∈ [v - 1/scaling, v]`
(`Geo2dType::_convert` / `Geo2dType::_unconvert` in `2d.cpp`). -/
theorem convert_unconvert_roundtrip (g : Geo2dType) (v : ℚ)
    (hr : g.gmin < g.gmax) (h1 : g.gmin ≤ v) (h2 : v < g.gmax) :
    g.convert v = ⌊(v - g.gmin) * g.scaling⌋ ∧
    g.unconvert (g.convert v) = ((g.convert v : ℤ) : ℚ) / g.scaling + g.gmin ∧
    v - 1 / g.scaling ≤ g.unconvert (g.convert v) ∧
    g.unconvert (g.convert v) ≤ v := by
  have hs : 0 < g.scaling := by
    apply div_pos (by norm_num)
    linarith
  have hsne : g.scaling ≠ 0 := ne_of_gt hs
  refine ⟨rfl, rfl, ?_, ?_⟩
  · have hfl : (v - g.gmin) * g.scaling - 1 < ((⌊(v - g.gmin) * g.scaling⌋ : ℤ) : ℚ) :=
      Int.sub_one_lt_floor _
    have key : v - g.gmin - 1 / g.scaling ≤
        ((⌊(v - g.gmin) * g.scaling⌋ : ℤ) : ℚ) / g.scaling := by
      rw [le_div_iff₀ hs]
      have expand : (v - g.gmin - 1 / g.scaling) * g.scaling =
          (v - g.gmin) * g.scaling - 1 := by
        field_simp
      rw [expand]
      linarith
    simp only [Geo2dType.unconvert, Geo2dType.convert]
    linarith
  · have hfu : ((⌊(v - g.gmin) * g.scaling⌋ : ℤ) : ℚ) ≤ (v - g.gmin) * g.scaling :=
      Int.floor_le _
    have key : ((⌊(v - g.gmin) * g.scaling⌋ : ℤ) : ℚ) / g.scaling ≤ v - g.gmin := by
      rw [div_le_iff₀ hs]
      linarith
    simp only [Geo2dType.unconvert, Geo2dType.convert]
    linarith

/-- Witness for `convert_unconvert_roundtrip` at the default interval
`[-180, 180)` and `v = 1/3`. -/
theorem convert_unconvert_roundtrip_witness :
    ((-180 : ℚ) < 180 ∧ (-180 : ℚ) ≤ 1 / 3 ∧ (1 / 3 : ℚ) < 180) ∧
    ((Geo2dType.mk (-180) 180).convert (1 / 3) =
        ⌊((1 / 3 : ℚ) - (Geo2dType.mk (-180) 180).gmin) * (Geo2dType.mk (-180) 180).scaling⌋ ∧
      (Geo2dType.mk (-180) 180).unconvert ((Geo2dType.mk (-180) 180).convert (1 / 3)) =
        (((Geo2dType.mk (-180) 180).convert (1 / 3) : ℤ) : ℚ) /
          (Geo2dType.mk (-180) 180).scaling + (Geo2dType.mk (-180) 180).gmin ∧
      (1 / 3 : ℚ) - 1 / (Geo2dType.mk (-180) 180).scaling ≤
        (Geo2dType.mk (-180) 180).unconvert ((Geo2dType.mk (-180) 180).convert (1 / 3)) ∧
      (Geo2dType.mk (-180) 180).unconvert ((Geo2dType.mk (-180) 180).convert (1 / 3)) ≤
        (1 / 3 : ℚ)) :=
  ⟨by norm_num,
    convert_unconvert_roundtrip (Geo2dType.mk (-180) 180) (1 / 3)
      (by norm_num) (by norm_num) (by norm_num)⟩

/-- C10 counterexample: at `numWanted = -2^31` the `int` negation
`numWanted * -1` overflows (two's-complement wrap), so `newCursor` keeps the
negative value `-2^31` instead of behaving like the absolute value `2^31`. -/
theorem newCursor_numWanted_intmin_counterexample :
    newCursorNumWanted (-(2 ^ 31)) = -(2 ^ 31) ∧
    newCursorNumWanted (-(2 ^ 31)) ≠ -(-(2 ^ 31) : ℤ) := by
  norm_num [newCursorNumWanted, int32wrap]

/-- C10 (amended): `newCursor` normalizes `numWanted` at the public
interface: any negative value other than `-2^31` behaves identically to its
absolute value (the negation of `-2^31` overflows the 32-bit `int` and the
value stays `-2^31`), `0` behaves identically to `100`, and positive values
pass through. -/
theorem newCursor_numWanted_normalizes (n : ℤ) (hlo : -(2 ^ 31) < n) :
    (n < 0 → newCursorNumWanted n = -n ∧ newCursorNumWanted n = newCursorNumWanted (-n)) ∧
    newCursorNumWanted 0 = newCursorNumWanted 100 ∧
    newCursorNumWanted 0 = 100 := by
  simp only [newCursorNumWanted, int32wrap]
  have p31 : (2 : ℤ) ^ 31 = 2147483648 := by norm_num
  have p32 : (2 : ℤ) ^ 32 = 4294967296 := by norm_num
  rw [p31, p32] at *
  constructor
  · intro hn
    constructor
    · split_ifs <;> omega
    · split_ifs <;> omega
  · constructor <;> (split_ifs <;> omega)

/-- Witness for `newCursor_numWanted_normalizes` at `numWanted = -7`. -/
theorem newCursor_numWanted_normalizes_witness :
    (-(2 ^ 31) : ℤ) < -7 ∧
    (((-7 : ℤ) < 0 → newCursorNumWanted (-7) = -(-7) ∧
        newCursorNumWanted (-7) = newCursorNumWanted (-(-7))) ∧
      newCursorNumWanted 0 = newCursorNumWanted 100 ∧
      newCursorNumWanted 0 = 100) :=
  ⟨by norm_num, newCursor_numWanted_normalizes (-7) (by norm_num)⟩

end Mongo2d

namespace Mongo2d

/-- When both `mid` calls on one axis succeed, the returned lower bound is at
most the returned upper bound (needs the `assert`ed well-formedness). -/
theorem Box.mid_le (amin amax bmin bmax x0 x1 : ℚ) (ha : amin ≤ amax) (hb : bmin ≤ bmax)
    (h0 : Box.mid amin amax bmin bmax true = some x0)
    (h1 : Box.mid amin amax bmin bmax false = some x1) : x0 ≤ x1 := by
  unfold Box.mid at h0 h1
  split_ifs at h0 h1 <;> simp_all <;> linarith

/-- `mid` fails when the first interval lies strictly left of the second. -/
theorem Box.mid_none_left (amin amax bmin bmax : ℚ) (u : Bool) (ha : amin ≤ amax)
    (h : amax < bmin) : Box.mid amin amax bmin bmax u = none := by
  unfold Box.mid
  rw [if_pos (by linarith), if_pos h]

/-- `mid` fails when the first interval lies strictly right of the second. -/
theorem Box.mid_none_right (amin amax bmin bmax : ℚ) (u : Bool) (hb : bmin ≤ bmax)
    (h : bmax < amin) : Box.mid amin amax bmin bmax u = none := by
  unfold Box.mid
  rw [if_neg (by push_neg; linarith), if_pos (by linarith)]

/-- C8 counterexample: for the well-formed nested boxes `a = [0,10]²` and
`b = [2,4]²`, `Box::intersects` returns `16/13 > 1` (the bound box built by
`mid` takes `a`'s max instead of the true intersection max), so the claimed
value `intersection_area / average_area = 4 / 52` and the claimed bound
`∈ [0, 1]` both fail. -/
theorem box_intersects_ratio_counterexample :
    (Box.mk (Point.mk 0 0) (Point.mk 10 10)).wf ∧
    (Box.mk (Point.mk 2 2) (Point.mk 4 4)).wf ∧
    Box.intersects (Box.mk (Point.mk 0 0) (Point.mk 10 10))
        (Box.mk (Point.mk 2 2) (Point.mk 4 4)) = 16 / 13 ∧
    ¬ Box.intersects (Box.mk (Point.mk 0 0) (Point.mk 10 10))
        (Box.mk (Point.mk 2 2) (Point.mk 4 4)) ≤ 1 ∧
    Box.intersects (Box.mk (Point.mk 0 0) (Point.mk 10 10))
        (Box.mk (Point.mk 2 2) (Point.mk 4 4)) ≠
      4 / (((Box.mk (Point.mk 0 0) (Point.mk 10 10)).area +
        (Box.mk (Point.mk 2 2) (Point.mk 4 4)).area) / 2) := by
  norm_num [Box.intersects, Box.mid, Box.area, Box.wf]

/-- C8 (amended): for well-formed boxes, `Box::intersects` returns the area
of the `mid`-built bound box over the average area; this value is
nonnegative and is `0` whenever the boxes are disjoint, but the bound box
may overshoot the true intersection (its upper corner is taken from the box
whose lower corner is smaller on that axis), so the ratio can exceed `1`
for nested boxes. -/
theorem box_intersects_nonneg_zero_on_disjoint (a b : Box) (ha : a.wf) (hb : b.wf) :
    0 ≤ Box.intersects a b ∧ (Box.disjoint a b → Box.intersects a b = 0) := by
  obtain ⟨hax, hay⟩ := ha
  obtain ⟨hbx, hby⟩ := hb
  cases hx0 : Box.mid a.bmin.x a.bmax.x b.bmin.x b.bmax.x true with
  | none =>
    constructor
    · simp [Box.intersects, hx0]
    · intro _; simp [Box.intersects, hx0]
  | some x0 =>
  cases hx1 : Box.mid a.bmin.x a.bmax.x b.bmin.x b.bmax.x false with
  | none =>
    constructor
    · simp [Box.intersects, hx0, hx1]
    · intro _; simp [Box.intersects, hx0, hx1]
  | some x1 =>
  cases hy0 : Box.mid a.bmin.y a.bmax.y b.bmin.y b.bmax.y true with
  | none =>
    constructor
    · simp [Box.intersects, hx0, hx1, hy0]
    · intro _; simp [Box.intersects, hx0, hx1, hy0]
  | some y0 =>
  cases hy1 : Box.mid a.bmin.y a.bmax.y b.bmin.y b.bmax.y false with
  | none =>
    constructor
    · simp [Box.intersects, hx0, hx1, hy0, hy1]
    · intro _; simp [Box.intersects, hx0, hx1, hy0, hy1]
  | some y1 =>
  constructor
  · have hgoal : Box.intersects a b =
        (Box.mk (Point.mk x0 y0) (Point.mk x1 y1)).area / ((a.area + b.area) / 2) := by
      simp [Box.intersects, hx0, hx1, hy0, hy1]
    rw [hgoal]
    apply div_nonneg
    · have hx := Box.mid_le _ _ _ _ _ _ hax hbx hx0 hx1
      have hy := Box.mid_le _ _ _ _ _ _ hay hby hy0 hy1
      unfold Box.area
      nlinarith
    · unfold Box.area
      nlinarith
  · intro hd
    exfalso
    rcases hd with h | h | h | h
    · rw [Box.mid_none_left _ _ _ _ _ hax h] at hx0
      exact Option.noConfusion hx0
    · rw [Box.mid_none_right _ _ _ _ _ hbx h] at hx0
      exact Option.noConfusion hx0
    · rw [Box.mid_none_left _ _ _ _ _ hay h] at hy0
      exact Option.noConfusion hy0
    · rw [Box.mid_none_right _ _ _ _ _ hby h] at hy0
      exact Option.noConfusion hy0

/-- Witness for `box_intersects_nonneg_zero_on_disjoint` on two concrete
disjoint well-formed boxes. -/
theorem box_intersects_nonneg_zero_on_disjoint_witness :
    ((Box.mk (Point.mk 0 0) (Point.mk 1 2)).wf ∧
      (Box.mk (Point.mk 5 5) (Point.mk 6 7)).wf) ∧
    (0 ≤ Box.intersects (Box.mk (Point.mk 0 0) (Point.mk 1 2))
        (Box.mk (Point.mk 5 5) (Point.mk 6 7)) ∧
      (Box.disjoint (Box.mk (Point.mk 0 0) (Point.mk 1 2))
          (Box.mk (Point.mk 5 5) (Point.mk 6 7)) →
        Box.intersects (Box.mk (Point.mk 0 0) (Point.mk 1 2))
          (Box.mk (Point.mk 5 5) (Point.mk 6 7)) = 0)) :=
  ⟨⟨by constructor <;> norm_num, by constructor <;> norm_num⟩,
    box_intersects_nonneg_zero_on_disjoint _ _
      ⟨by norm_num, by norm_num⟩ ⟨by norm_num, by norm_num⟩⟩

/-- With `fudge = 0` the edge-proximity test of `Polygon::contains` can
never fire: its outermost conjunct is `fudge > 0`. -/
theorem fudgeHit_zero_false (p p1 p2 : Point) : ¬ fudgeHit p 0 p1 p2 :=
  fun h => absurd h.1 (lt_irrefl 0)

/-- With `fudge = 0` the loop of `Polygon::contains` computes the ray-casting
parity of the accumulated counter. -/
theorem containsGo_zero_fudge (p : Point) : ∀ (es : List (Point × Point)) (c : ℕ),
    Polygon.containsGo p 0 es c =
      if (c + es.countP (fun e => decide (crossing p e.1 e.2))) % 2 = 0 then -1 else 1
  | [], c => by simp [Polygon.containsGo]
  | e :: es, c => by
    rw [Polygon.containsGo, if_neg (fudgeHit_zero_false p e.1 e.2),
      containsGo_zero_fudge p es]
    by_cases hc : crossing p e.1 e.2
    · have hcount : (e :: es).countP (fun e => decide (crossing p e.1 e.2)) =
          es.countP (fun e => decide (crossing p e.1 e.2)) + 1 := by
        simp [List.countP_cons, hc]
      have harith : c + 1 + es.countP (fun e => decide (crossing p e.1 e.2)) =
          c + (es.countP (fun e => decide (crossing p e.1 e.2)) + 1) := by omega
      rw [if_pos hc, hcount, harith]
    · have hcount : (e :: es).countP (fun e => decide (crossing p e.1 e.2)) =
          es.countP (fun e => decide (crossing p e.1 e.2)) := by
        simp [List.countP_cons, hc]
      rw [if_neg hc, hcount, Nat.add_zero]

/-- C9: for every polygon with at least 3 vertices and every point `p`,
`Polygon::contains(p, fudge)` with `fudge = 0` never returns `0`: every
edge-proximity check is guarded by `fudge > 0`, so the result is `+1` or
`-1` determined solely by the ray-casting crossing parity. -/
theorem polygon_contains_fudge_zero_conclusive (poly : Polygon) (p : Point)
    (h3 : 3 ≤ poly.points.length) :
    poly.containsFudge p 0 ≠ 0 ∧
    poly.containsFudge p 0 = (if poly.crossCount p % 2 = 0 then -1 else 1) := by
  have h := containsGo_zero_fudge p poly.edges 0
  constructor
  · rw [Polygon.containsFudge, h]
    split <;> norm_num
  · rw [Polygon.containsFudge, h, Polygon.crossCount, Nat.zero_add]

/-- Witness for `polygon_contains_fudge_zero_conclusive` on a concrete
triangle and query point. -/
theorem polygon_contains_fudge_zero_conclusive_witness :
    3 ≤ (Polygon.mk [Point.mk 0 0, Point.mk 4 0, Point.mk 0 4]).points.length ∧
    ((Polygon.mk [Point.mk 0 0, Point.mk 4 0, Point.mk 0 4]).containsFudge
        (Point.mk 1 1) 0 ≠ 0 ∧
      (Polygon.mk [Point.mk 0 0, Point.mk 4 0, Point.mk 0 4]).containsFudge
          (Point.mk 1 1) 0 =
        (if (Polygon.mk [Point.mk 0 0, Point.mk 4 0, Point.mk 0 4]).crossCount
            (Point.mk 1 1) % 2 = 0 then -1 else 1)) :=
  ⟨by simp, polygon_contains_fudge_zero_conclusive _ _ (by simp)⟩

end Mongo2d

namespace Mongo2d

/-- One `GeoAccumulator::add` call preserves the emission invariant: emitted
record locators are distinct, and every emitted document is cached as a
successful match in `_matched`. -/
theorem accAdd_invariant (checkDist matchPred : KeyNode → Bool) (st : AccState) (n : KeyNode)
    (h1 : (st.emitted.map KeyNode.recordLoc).Nodup)
    (h2 : ∀ k ∈ st.emitted, st.matched.lookup k.recordLoc = some true) :
    ((GeoAccumulator.add checkDist matchPred st n).emitted.map KeyNode.recordLoc).Nodup ∧
    ∀ k ∈ (GeoAccumulator.add checkDist matchPred st n).emitted,
      (GeoAccumulator.add checkDist matchPred st n).matched.lookup k.recordLoc = some true := by
  by_cases hseen : (n.keyId, n.recordLoc) ∈ st.seen
  · have he : GeoAccumulator.add checkDist matchPred st n = st := by
      simp [GeoAccumulator.add, hseen]
    rw [he]
    exact ⟨h1, h2⟩
  · by_cases hcd : checkDist n = true
    · cases hl : List.lookup n.recordLoc st.matched with
      | none =>
        by_cases hmp : matchPred n = true
        · have he : GeoAccumulator.add checkDist matchPred st n =
              AccState.mk ((n.keyId, n.recordLoc) :: st.seen)
                ((n.recordLoc, true) :: st.matched) (st.emitted ++ [n]) := by
            simp [GeoAccumulator.add, hseen, hcd, hl, hmp]
          rw [he]
          have hnotmem : n.recordLoc ∉ st.emitted.map KeyNode.recordLoc := by
            intro hmem
            obtain ⟨k, hk, hkeq⟩ := List.mem_map.mp hmem
            have hkl := h2 k hk
            rw [hkeq, hl] at hkl
            exact Option.noConfusion hkl
          constructor
          · simp only [List.map_append, List.map_cons, List.map_nil]
            rw [List.nodup_append]
            exact ⟨h1, List.nodup_singleton _, by simpa using hnotmem⟩
          · intro k hk
            rcases List.mem_append.mp hk with hk | hk
            · have hkl := h2 k hk
              have hne : (k.recordLoc == n.recordLoc) = false := by
                rw [beq_eq_false_iff_ne]
                intro heq
                rw [heq, hl] at hkl
                exact Option.noConfusion hkl
              simpa [List.lookup, hne] using hkl
            · have hkn : k = n := by simpa using hk
              subst hkn
              simp [List.lookup]
        · have he : GeoAccumulator.add checkDist matchPred st n =
              AccState.mk ((n.keyId, n.recordLoc) :: st.seen)
                ((n.recordLoc, false) :: st.matched) st.emitted := by
            simp [GeoAccumulator.add, hseen, hcd, hl, hmp]
          rw [he]
          refine ⟨h1, fun k hk => ?_⟩
          have hkl := h2 k hk
          have hne : (k.recordLoc == n.recordLoc) = false := by
            rw [beq_eq_false_iff_ne]
            intro heq
            rw [heq, hl] at hkl
            exact Option.noConfusion hkl
          simpa [List.lookup, hne] using hkl
      | some b =>
        cases b
        · have he : GeoAccumulator.add checkDist matchPred st n =
              AccState.mk ((n.keyId, n.recordLoc) :: st.seen) st.matched st.emitted := by
            simp [GeoAccumulator.add, hseen, hcd, hl]
          rw [he]
          exact ⟨h1, h2⟩
        · have he : GeoAccumulator.add checkDist matchPred st n =
              AccState.mk ((n.keyId, n.recordLoc) :: st.seen) st.matched st.emitted := by
            simp [GeoAccumulator.add, hseen, hcd, hl]
          rw [he]
          exact ⟨h1, h2⟩
    · have he : GeoAccumulator.add checkDist matchPred st n =
          AccState.mk ((n.keyId, n.recordLoc) :: st.seen) st.matched st.emitted := by
        simp [GeoAccumulator.add, hseen, hcd]
      rw [he]
      exact ⟨h1, h2⟩

/-- C2: for every region query, no document is emitted more than once, even
when the document has multiple matching locations: `GeoAccumulator::add`
dedups on `(key bytes, record locator)`, caches the predicate result per
locator, and passes `newDoc = false` for a second key of an already-accepted
document, which `GeoBrowse::addSpecific` drops — so the emitted record
locators are pairwise distinct for every candidate stream. -/
theorem geoBrowse_no_duplicate_documents (checkDist matchPred : KeyNode → Bool)
    (ns : List KeyNode) :
    ((GeoAccumulator.run checkDist matchPred ns).emitted.map KeyNode.recordLoc).Nodup := by
  suffices h : ∀ (ms : List KeyNode) (st : AccState),
      (st.emitted.map KeyNode.recordLoc).Nodup →
      (∀ k ∈ st.emitted, st.matched.lookup k.recordLoc = some true) →
      ((ms.foldl (GeoAccumulator.add checkDist matchPred) st).emitted.map
        KeyNode.recordLoc).Nodup by
    exact h ns (AccState.mk [] [] []) (by simp) (by simp)
  intro ms
  induction ms with
  | nil =>
    intro st hh1 _
    simpa using hh1
  | cons n ms ih =>
    intro st hh1 hh2
    have hinv := accAdd_invariant checkDist matchPred st n hh1 hh2
    exact ih _ hinv.1 hinv.2

end Mongo2d

namespace Mongo2d

/-- When no location is within range, the `exactDistances` loop keeps its
negative sentinel. -/
theorem exactLoop_stay_neg (maxD : ℚ) : ∀ (ds : List ℚ) (m : ℚ), m < 0 →
    (∀ d ∈ ds, ¬ d ≤ maxD) → exactLoop maxD ds m = m
  | [], _, _, _ => rfl
  | d :: ds, m, hm, h => by
    rw [exactLoop, if_neg (h d (List.mem_cons_self d ds))]
    exact exactLoop_stay_neg maxD ds m hm (fun x hx => h x (List.mem_cons_of_mem d hx))

/-- Accumulator invariant of the `exactDistances` loop once a within-range
distance has been adopted. -/
theorem exactLoop_acc (maxD : ℚ) : ∀ (ds : List ℚ) (m : ℚ), 0 ≤ m → m ≤ maxD →
    (∀ d ∈ ds, 0 ≤ d) →
    (exactLoop maxD ds m = m ∨ exactLoop maxD ds m ∈ ds) ∧
    exactLoop maxD ds m ≤ m ∧ 0 ≤ exactLoop maxD ds m ∧ exactLoop maxD ds m ≤ maxD ∧
    (∀ d ∈ ds, d ≤ maxD → exactLoop maxD ds m ≤ d)
  | [], m, hm0, hmD, _ => ⟨Or.inl rfl, le_refl m, hm0, hmD, by simp⟩
  | d :: ds, m, hm0, hmD, hnn => by
    have hd0 : 0 ≤ d := hnn d (List.mem_cons_self d ds)
    have hnn' : ∀ x ∈ ds, 0 ≤ x := fun x hx => hnn x (List.mem_cons_of_mem d hx)
    by_cases hdD : d ≤ maxD
    · by_cases hrepl : m < 0 ∨ d < m
      · have hdm : d < m := hrepl.resolve_left (not_lt.mpr hm0)
        rw [exactLoop, if_pos hdD, if_pos hrepl]
        obtain ⟨hmem, hle, h0, hD, hall⟩ := exactLoop_acc maxD ds d hd0 hdD hnn'
        refine ⟨?_, ?_, h0, hD, ?_⟩
        · rcases hmem with he | he
          · exact Or.inr (by rw [he]; exact List.mem_cons_self d ds)
          · exact Or.inr (List.mem_cons_of_mem d he)
        · linarith
        · intro x hx hxD
          rcases List.mem_cons.mp hx with he | hx'
          · rw [he]; exact hle
          · exact hall x hx' hxD
      · rw [exactLoop, if_pos hdD, if_neg hrepl]
        push_neg at hrepl
        obtain ⟨hmem, hle, h0, hD, hall⟩ := exactLoop_acc maxD ds m hm0 hmD hnn'
        refine ⟨?_, hle, h0, hD, ?_⟩
        · rcases hmem with he | he
          · exact Or.inl he
          · exact Or.inr (List.mem_cons_of_mem d he)
        · intro x hx hxD
          rcases List.mem_cons.mp hx with he | hx'
          · rw [he]; linarith [hrepl.2]
          · exact hall x hx' hxD
    · rw [exactLoop, if_neg hdD]
      obtain ⟨hmem, hle, h0, hD, hall⟩ := exactLoop_acc maxD ds m hm0 hmD hnn'
      refine ⟨?_, hle, h0, hD, ?_⟩
      · rcases hmem with he | he
        · exact Or.inl he
        · exact Or.inr (List.mem_cons_of_mem d he)
      · intro x hx hxD
        rcases List.mem_cons.mp hx with he | hx'
        · rw [he] at hxD; exact absurd hxD hdD
        · exact hall x hx' hxD

/-- When some location is within range, the `exactDistances` loop starting
from the sentinel returns the minimum within-range distance, which is an
element of the list. -/
theorem exactLoop_found (maxD : ℚ) : ∀ (ds : List ℚ), (∀ d ∈ ds, 0 ≤ d) →
    (∃ d ∈ ds, d ≤ maxD) →
    exactLoop maxD ds (-1) ∈ ds ∧ 0 ≤ exactLoop maxD ds (-1) ∧
    exactLoop maxD ds (-1) ≤ maxD ∧ (∀ d ∈ ds, d ≤ maxD → exactLoop maxD ds (-1) ≤ d)
  | [], _, hex => absurd hex (by simp)
  | d :: ds, hnn, hex => by
    have hd0 : 0 ≤ d := hnn d (List.mem_cons_self d ds)
    have hnn' : ∀ x ∈ ds, 0 ≤ x := fun x hx => hnn x (List.mem_cons_of_mem d hx)
    by_cases hdD : d ≤ maxD
    · rw [exactLoop, if_pos hdD, if_pos (Or.inl (by norm_num))]
      obtain ⟨hmem, hle, h0, hD, hall⟩ := exactLoop_acc maxD ds d hd0 hdD hnn'
      refine ⟨?_, h0, hD, ?_⟩
      · rcases hmem with he | he
        · rw [he]; exact List.mem_cons_self d ds
        · exact List.mem_cons_of_mem d he
      · intro x hx hxD
        rcases List.mem_cons.mp hx with he | hx'
        · rw [he]; exact hle
        · exact hall x hx' hxD
    · rw [exactLoop, if_neg hdD]
      have hex' : ∃ x ∈ ds, x ≤ maxD := by
        obtain ⟨x, hx, hxD⟩ := hex
        rcases List.mem_cons.mp hx with he | hx'
        · rw [he] at hxD; exact absurd hxD hdD
        · exact ⟨x, hx', hxD⟩
      obtain ⟨hmem, h0, hD, hall⟩ := exactLoop_found maxD ds hnn' hex'
      refine ⟨List.mem_cons_of_mem d hmem, h0, hD, ?_⟩
      intro x hx hxD
      rcases List.mem_cons.mp hx with he | hx'
      · rw [he] at hxD; exact absurd hxD hdD
      · exact hall x hx' hxD

/-- `exactDistances` produces a value exactly when some location is within
`maxDistance` (given nonnegative distances). -/
theorem exactDistances_isSome_iff {α : Type} (dist : α → ℚ) (maxD : ℚ) (locs : List α)
    (hnn : ∀ l ∈ locs, 0 ≤ dist l) :
    (∃ m, exactDistances dist maxD locs = some m) ↔ ∃ l ∈ locs, dist l ≤ maxD := by
  constructor
  · rintro ⟨m, hm⟩
    by_contra hno
    push_neg at hno
    have hall : ∀ d ∈ locs.map dist, ¬ d ≤ maxD := by
      intro d hd
      obtain ⟨l, hl, he⟩ := List.mem_map.mp hd
      rw [← he]
      exact not_le.mpr (hno l hl)
    have hstay := exactLoop_stay_neg maxD (locs.map dist) (-1) (by norm_num) hall
    simp only [exactDistances, hstay] at hm
    norm_num at hm
    exact Option.noConfusion hm
  · rintro ⟨l, hl, hlD⟩
    have hnn' : ∀ d ∈ locs.map dist, 0 ≤ d := by
      intro d hd
      obtain ⟨x, hx, he⟩ := List.mem_map.mp hd
      rw [← he]
      exact hnn x hx
    have hex : ∃ d ∈ locs.map dist, d ≤ maxD := ⟨dist l, List.mem_map_of_mem dist hl, hlD⟩
    obtain ⟨_, h0, _, _⟩ := exactLoop_found maxD (locs.map dist) hnn' hex
    exact ⟨exactLoop maxD (locs.map dist) (-1), by simp only [exactDistances, if_pos h0]⟩

/-- The value produced by `exactDistances` is a lower bound of all the
document's distances, attained at one of them, and is within `maxDistance`. -/
theorem exactDistances_some_spec {α : Type} (dist : α → ℚ) (maxD : ℚ) (locs : List α) (m : ℚ)
    (hnn : ∀ l ∈ locs, 0 ≤ dist l)
    (h : exactDistances dist maxD locs = some m) :
    m ∈ locs.map dist ∧ m ≤ maxD ∧ (∀ d ∈ locs.map dist, m ≤ d) := by
  have hnn' : ∀ d ∈ locs.map dist, 0 ≤ d := by
    intro d hd
    obtain ⟨x, hx, he⟩ := List.mem_map.mp hd
    rw [← he]
    exact hnn x hx
  have hex : ∃ l ∈ locs, dist l ≤ maxD :=
    (exactDistances_isSome_iff dist maxD locs hnn).mp ⟨m, h⟩
  have hexd : ∃ d ∈ locs.map dist, d ≤ maxD := by
    obtain ⟨l, hl, hlD⟩ := hex
    exact ⟨dist l, List.mem_map_of_mem dist hl, hlD⟩
  obtain ⟨hmem, h0, hD, hall⟩ := exactLoop_found maxD (locs.map dist) hnn' hexd
  have hm : m = exactLoop maxD (locs.map dist) (-1) := by
    simp only [exactDistances, if_pos h0] at h
    exact (Option.some.inj h).symm
  subst hm
  refine ⟨hmem, hD, ?_⟩
  intro d hd
  by_cases hdD : d ≤ maxD
  · exact hall d hd hdD
  · exact le_of_lt (lt_of_le_of_lt hD (not_le.mp hdD))

/-- C3: for every candidate accepted into the nearest-point result set, the
recorded exact distance is the minimum over *all* locations of the document
(the hash filter in `GeoHopper::exactDistances` is commented out), so a
multi-location document is ranked by its closest location. -/
theorem exactDistances_min_over_all_locations {α : Type} (dist : α → ℚ) (maxD : ℚ)
    (locs : List α) (m : ℚ) (hnn : ∀ l ∈ locs, 0 ≤ dist l)
    (hsome : exactDistances dist maxD locs = some m) :
    (∃ l ∈ locs, dist l = m) ∧ (∀ l ∈ locs, m ≤ dist l) ∧ m ≤ maxD := by
  obtain ⟨hmem, hD, hall⟩ := exactDistances_some_spec dist maxD locs m hnn hsome
  refine ⟨?_, ?_, hD⟩
  · obtain ⟨l, hl, he⟩ := List.mem_map.mp hmem
    exact ⟨l, hl, he⟩
  · intro l hl
    exact hall (dist l) (List.mem_map_of_mem dist hl)

/-- Witness for `exactDistances_min_over_all_locations` on a three-location
document with distances `5, 2, 7` and `maxDistance = 10`. -/
theorem exactDistances_min_over_all_locations_witness :
    ((∀ l ∈ [(5 : ℚ), 2, 7], 0 ≤ id l) ∧
      exactDistances (id : ℚ → ℚ) 10 [5, 2, 7] = some 2) ∧
    ((∃ l ∈ [(5 : ℚ), 2, 7], id l = 2) ∧ (∀ l ∈ [(5 : ℚ), 2, 7], 2 ≤ id l) ∧ (2 : ℚ) ≤ 10) :=
  ⟨⟨by norm_num, by norm_num [exactDistances, exactLoop]⟩,
    exactDistances_min_over_all_locations (id : ℚ → ℚ) 10 [5, 2, 7] 2
      (by norm_num) (by norm_num [exactDistances, exactLoop])⟩

end Mongo2d

namespace Mongo2d

/-- Inserting into the holder grows it by one. -/
theorem holderInsert_length (d : ℚ) : ∀ (l : List ℚ),
    (holderInsert d l).length = l.length + 1
  | [] => rfl
  | x :: xs => by
    rw [holderInsert]
    split
    · simp
    · simp [holderInsert_length d xs]

/-- Membership in the holder after an insertion. -/
theorem holderInsert_mem (d y : ℚ) : ∀ (l : List ℚ),
    y ∈ holderInsert d l ↔ y = d ∨ y ∈ l
  | [] => by simp [holderInsert]
  | x :: xs => by
    rw [holderInsert]
    split
    · simp only [List.mem_cons]
    · simp only [List.mem_cons, holderInsert_mem d y xs]
      tauto

/-- Multiset insertion keeps the holder sorted by exact distance. -/
theorem holderInsert_sorted (d : ℚ) : ∀ (l : List ℚ), l.Sorted (· ≤ ·) →
    (holderInsert d l).Sorted (· ≤ ·)
  | [], _ => by simp [holderInsert]
  | x :: xs, h => by
    rw [List.sorted_cons] at h
    obtain ⟨hx, hxs⟩ := h
    rw [holderInsert]
    split
    case isTrue hlt =>
      rw [List.sorted_cons]
      refine ⟨?_, List.sorted_cons.mpr ⟨hx, hxs⟩⟩
      intro b hb
      rcases List.mem_cons.mp hb with he | hb'
      · rw [he]
        exact le_of_lt hlt
      · exact le_trans (le_of_lt hlt) (hx b hb')
    case isFalse hge =>
      rw [List.sorted_cons]
      refine ⟨?_, holderInsert_sorted d xs hxs⟩
      intro b hb
      rcases (holderInsert_mem d b xs).mp hb with he | hb'
      · rw [he]
        exact not_lt.mp hge
      · exact hx b hb'

/-- One `GeoHopper::addSpecific` call preserves the holder invariant
(sorted, within range, size `min _max <seen qualifying candidates>`). -/
theorem hopper_step (maxN : ℕ) (maxD : ℚ) (pts : List ℚ) (c : Candidate) (q : ℕ)
    (hnn : ∀ d ∈ c.dists, 0 ≤ d)
    (hs : pts.Sorted (· ≤ ·)) (hb : ∀ d ∈ pts, d ≤ maxD)
    (hlen : pts.length = min maxN q) :
    (GeoHopper.addSpecific maxN maxD pts c).Sorted (· ≤ ·) ∧
    (∀ d ∈ GeoHopper.addSpecific maxN maxD pts c, d ≤ maxD) ∧
    (GeoHopper.addSpecific maxN maxD pts c).length =
      min maxN (q + if qualifies maxD c then 1 else 0) := by
  unfold GeoHopper.addSpecific
  by_cases hnd : c.newDoc = true
  · rw [if_pos hnd]
    cases hex : exactDistances id maxD c.dists with
    | none =>
      have hq : ¬ qualifies maxD c := by
        rintro ⟨_, l, hl, hlD⟩
        obtain ⟨m, hm⟩ := (exactDistances_isSome_iff id maxD c.dists
          (fun x hx => hnn x hx)).mpr ⟨l, hl, hlD⟩
        rw [hex] at hm
        exact Option.noConfusion hm
      rw [if_neg hq]
      exact ⟨hs, hb, by simpa using hlen⟩
    | some m =>
      obtain ⟨hmem, hmD, _⟩ := exactDistances_some_spec id maxD c.dists m
        (fun x hx => hnn x hx) hex
      have hmem' : m ∈ c.dists := by simpa using hmem
      have hq : qualifies maxD c := ⟨hnd, m, hmem', hmD⟩
      rw [if_pos hq]
      refine ⟨?_, ?_, ?_⟩
      · exact List.Pairwise.sublist (List.take_sublist maxN _)
          (holderInsert_sorted m pts hs)
      · intro d hd
        have hd' : d ∈ holderInsert m pts := List.take_subset maxN _ hd
        rcases (holderInsert_mem m d pts).mp hd' with he | hd''
        · rw [he]; exact hmD
        · exact hb d hd''
      · rw [List.length_take, holderInsert_length, hlen]
        omega
  · rw [if_neg hnd]
    have hq : ¬ qualifies maxD c := fun hq => hnd hq.1
    rw [if_neg hq]
    exact ⟨hs, hb, by simpa using hlen⟩

/-- The holder invariant carried over a whole candidate stream. -/
theorem hopper_fold (maxN : ℕ) (maxD : ℚ) : ∀ (cs : List Candidate) (pts : List ℚ) (q : ℕ),
    (∀ c ∈ cs, ∀ d ∈ c.dists, 0 ≤ d) →
    pts.Sorted (· ≤ ·) → (∀ d ∈ pts, d ≤ maxD) → pts.length = min maxN q →
    (cs.foldl (GeoHopper.addSpecific maxN maxD) pts).Sorted (· ≤ ·) ∧
    (∀ d ∈ cs.foldl (GeoHopper.addSpecific maxN maxD) pts, d ≤ maxD) ∧
    (cs.foldl (GeoHopper.addSpecific maxN maxD) pts).length =
      min maxN (q + cs.countP (fun c => decide (qualifies maxD c)))
  | [], pts, q, _, hs, hb, hlen => ⟨hs, hb, by simpa using hlen⟩
  | c :: cs, pts, q, hnn, hs, hb, hlen => by
    obtain ⟨hs', hb', hlen'⟩ := hopper_step maxN maxD pts c q
      (hnn c (List.mem_cons_self c cs)) hs hb hlen
    have hnn' : ∀ x ∈ cs, ∀ d ∈ x.dists, 0 ≤ d :=
      fun x hx => hnn x (List.mem_cons_of_mem c hx)
    rw [List.foldl_cons]
    obtain ⟨h1, h2, h3⟩ := hopper_fold maxN maxD cs _
      (q + if qualifies maxD c then 1 else 0) hnn' hs' hb' hlen'
    refine ⟨h1, h2, ?_⟩
    rw [h3, List.countP_cons]
    by_cases hq : qualifies maxD c
    · simp only [hq, decide_eq_true_eq, if_pos hq]
      congr 1
      simp [hq]
      omega
    · simp only [if_neg hq]
      congr 1
      simp [hq]

/-- C1: the result set held by `GeoHopper` (and iterated in order by
`GeoSearchCursor`) contains at most `_max` documents, is sorted
non-decreasing by exact distance, every held exact distance is within
`maxDistance`, and exactly `min(_max, number of qualifying new-document
candidates)` documents are held. -/
theorem geoHopper_nearest_result_set (maxN : ℕ) (maxD : ℚ) (cs : List Candidate)
    (hnn : ∀ c ∈ cs, ∀ d ∈ c.dists, 0 ≤ d) :
    (GeoHopper.run maxN maxD cs).length ≤ maxN ∧
    (GeoHopper.run maxN maxD cs).Sorted (· ≤ ·) ∧
    (∀ d ∈ GeoHopper.run maxN maxD cs, d ≤ maxD) ∧
    (GeoHopper.run maxN maxD cs).length =
      min maxN (cs.countP (fun c => decide (qualifies maxD c))) := by
  obtain ⟨h1, h2, h3⟩ := hopper_fold maxN maxD cs [] 0 hnn (by simp) (by simp) (by simp)
  have hrun : GeoHopper.run maxN maxD cs = cs.foldl (GeoHopper.addSpecific maxN maxD) [] := rfl
  rw [hrun]
  refine ⟨?_, h1, h2, ?_⟩
  · rw [h3]
    omega
  · rw [h3, Nat.zero_add]

end Mongo2d

namespace MongoDur

/-- A successful 32-bit read implies the four bytes are inside the buffer. -/
theorem readU32_bound (data : Bytes) (o w : ℕ) (h : readU32 data o = some w) :
    o + 4 ≤ data.length := by
  unfold readU32 at h
  split at h
  case _ b0 b1 b2 b3 hb0 hb1 hb2 hb3 =>
    obtain ⟨hlt, -⟩ := List.get?_eq_some.mp hb3
    omega
  case _ =>
    exact Option.noConfusion h

/-- Alignment never moves the position backwards. -/
theorem alignUp_ge (a x : ℕ) (ha : 0 < a) : x ≤ alignUp a x := by
  unfold alignUp
  have h := Nat.div_add_mod (x + a - 1) a
  have h2 := Nat.mod_lt (x + a - 1) ha
  omega

/-- An entry produced by the tail block strictly advances the reader within
the buffer. -/
theorem nextTail_entry_mono (data : Bytes) (h0 : ℕ) (db : Option Bytes) (w q : ℕ)
    (e : ParsedEntry) (s2 : IterState) (h : nextTail data h0 db w q = .entry e s2) :
    s2.data = data ∧ q < s2.ofs ∧ s2.ofs ≤ data.length := by
  unfold nextTail at h
  split_ifs at h <;>
    first
      | exact NextResult.noConfusion h
      | (split at h <;>
           first
             | exact NextResult.noConfusion h
             | (simp only [NextResult.entry.injEq] at h
                obtain ⟨-, hs⟩ := h
                subst hs
                exact ⟨rfl, show q < q + 24 by omega,
                  show q + 24 ≤ data.length by omega⟩)
             | (simp only [NextResult.entry.injEq] at h
                obtain ⟨-, hs⟩ := h
                subst hs
                exact ⟨rfl, show q < q + 12 + w by omega,
                  show q + 12 + w ≤ data.length by omega⟩))

/-- The tail block never ends a section. -/
theorem nextTail_no_endSection (data : Bytes) (h0 : ℕ) (db : Option Bytes) (w q : ℕ)
    (s2 : IterState) (h : nextTail data h0 db w q = .endSection s2) : False := by
  unfold nextTail at h
  split_ifs at h <;>
    first
      | exact NextResult.noConfusion h
      | (split at h <;> exact NextResult.noConfusion h)

/-- An entry produced by `nextCore` strictly advances the reader within the
buffer. -/
theorem nextCore_entry_mono (md5 : Bytes → Bytes) (data : Bytes) (h0 ofs0 : ℕ)
    (db : Option Bytes) (e : ParsedEntry) (s2 : IterState)
    (h : nextCore md5 data h0 ofs0 db = .entry e s2) :
    s2.data = data ∧ ofs0 < s2.ofs ∧ s2.ofs ≤ data.length := by
  unfold nextCore at h
  split at h
  case _ => exact NextResult.noConfusion h
  case _ w hw =>
    split_ifs at h
    · split at h <;>
        first
          | exact NextResult.noConfusion h
          | (split_ifs at h <;>
               first
                 | exact NextResult.noConfusion h
                 | (rename_i len hlen hnotlt
                    simp only [NextResult.entry.injEq] at h
                    obtain ⟨-, hs⟩ := h
                    subst hs
                    exact ⟨rfl, show ofs0 < ofs0 + 8 + len by omega,
                      show ofs0 + 8 + len ≤ data.length by omega⟩))
    · split at h <;>
        first
          | exact NextResult.noConfusion h
          | (split at h <;>
               first
                 | exact NextResult.noConfusion h
                 | (obtain ⟨hd, hlt, hle⟩ := nextTail_entry_mono _ _ _ _ _ _ _ h
                    exact ⟨hd, by omega, hle⟩))
    · obtain ⟨hd, hlt, hle⟩ := nextTail_entry_mono _ _ _ _ _ _ _ h
      exact ⟨hd, hlt, hle⟩

/-- An end of section produced by `nextCore` strictly advances the reader
within the buffer. -/
theorem nextCore_end_mono (md5 : Bytes → Bytes) (data : Bytes) (h0 ofs0 : ℕ)
    (db : Option Bytes) (s2 : IterState)
    (h : nextCore md5 data h0 ofs0 db = .endSection s2) :
    s2.data = data ∧ ofs0 < s2.ofs ∧ s2.ofs ≤ data.length := by
  unfold nextCore at h
  split at h
  case _ => exact NextResult.noConfusion h
  case _ w hw =>
    split_ifs at h
    · simp only [NextResult.endSection.injEq] at h
      subst h
      have halign : ofs0 + FooterSize ≤ alignUp Alignment (ofs0 + FooterSize) :=
        alignUp_ge Alignment (ofs0 + FooterSize) (by norm_num [Alignment])
      have hfs : FooterSize = 32 := rfl
      exact ⟨rfl, show ofs0 < alignUp Alignment (ofs0 + FooterSize) by omega,
        show alignUp Alignment (ofs0 + FooterSize) ≤ data.length by omega⟩
    · split at h <;>
        first
          | exact NextResult.noConfusion h
          | (split_ifs at h <;> exact NextResult.noConfusion h)
    · split at h <;>
        first
          | exact NextResult.noConfusion h
          | (split at h <;>
               first
                 | exact NextResult.noConfusion h
                 | exact absurd h (fun hh => nextTail_no_endSection _ _ _ _ _ _ hh))
    · exact absurd h (fun hh => nextTail_no_endSection _ _ _ _ _ _ hh)

/-- An entry produced by `next` strictly advances the reader. -/
theorem next_entry_mono (md5 : Bytes → Bytes) (s : IterState) (e : ParsedEntry) (s2 : IterState)
    (h : next md5 s = .entry e s2) :
    s2.data = s.data ∧ s.ofs < s2.ofs ∧ s2.ofs ≤ s.data.length := by
  unfold next at h
  split at h
  case _ hs =>
    obtain ⟨hd, hlt, hle⟩ := nextCore_entry_mono _ _ _ _ _ _ _ h
    exact ⟨hd, by omega, hle⟩
  case _ hh hs =>
    exact nextCore_entry_mono _ _ _ _ _ _ _ h

/-- An end of section produced by `next` strictly advances the reader. -/
theorem next_end_mono (md5 : Bytes → Bytes) (s : IterState) (s2 : IterState)
    (h : next md5 s = .endSection s2) :
    s2.data = s.data ∧ s.ofs < s2.ofs ∧ s2.ofs ≤ s.data.length := by
  unfold next at h
  split at h
  case _ hs =>
    obtain ⟨hd, hlt, hle⟩ := nextCore_end_mono _ _ _ _ _ _ h
    exact ⟨hd, by omega, hle⟩
  case _ hh hs =>
    exact nextCore_end_mono _ _ _ _ _ _ h

/-- The fuel passed by `processBuffer` (one unit per remaining byte, plus
one) can never run out: every `next` step consumes at least one byte. -/
theorem runSections_fuel_sufficient (md5 : Bytes → Bytes) : ∀ (fuel : ℕ) (s : IterState)
    (done : List (List ParsedEntry)) (cur : List ParsedEntry),
    s.ofs ≤ s.data.length → s.data.length < s.ofs + fuel →
    runSections md5 fuel s done cur ≠ .fuelOut
  | 0, s, _, _, h1, h2 => by omega
  | fuel + 1, s, done, cur, h1, h2 => by
    cases hn : next md5 s with
    | entry e s2 =>
      obtain ⟨hd, hlt, hle⟩ := next_entry_mono md5 s e s2 hn
      rw [runSections]
      simp only [hn]
      exact runSections_fuel_sufficient md5 fuel s2 done (cur ++ [e])
        (by rw [hd]; exact hle) (by rw [hd]; omega)
    | endSection s2 =>
      obtain ⟨hd, hlt, hle⟩ := next_end_mono md5 s s2 hn
      rw [runSections]
      simp only [hn]
      split
      · simp
      · exact runSections_fuel_sufficient md5 fuel s2 (done ++ [cur]) []
          (by rw [hd]; exact hle) (by rw [hd]; omega)
    | eof =>
      rw [runSections]
      simp [hn]
    | err c =>
      rw [runSections]
      simp [hn]

/-- `processBuffer` never reports fuel exhaustion: the model is total on
every input buffer. -/
theorem processBuffer_no_fuelOut (md5 : Bytes → Bytes) (data : Bytes) :
    processBuffer md5 data ≠ .fuelOut := by
  unfold processBuffer
  split_ifs with hsz hv hm
  · simp
  · simp
  · simp
  · have h1 : JHeaderSize ≤ data.length := Nat.le_of_not_lt hsz
    have h2 : data.length < JHeaderSize + (data.length + 1) := by omega
    exact runSections_fuel_sufficient md5 (data.length + 1)
      (IterState.mk data JHeaderSize none none) [] [] h1 h2

end MongoDur

namespace MongoDur

/-- The loop of `RecoveryJob::go` over the remaining files, with the
sections applied so far: the abrupt-end error is raised exactly when a
non-last remaining file is abrupt, and with no non-last abrupt file the run
succeeds having applied every complete section (assuming no file raises a
propagating assertion). -/
theorem goAux_spec (md5 : Bytes → Bytes) : ∀ (files : List Bytes) (acc : List (List ParsedEntry)),
    (∀ f ∈ files, (processBuffer md5 f).isClean = true) →
    (RecoveryJob.goAux md5 files acc = .abruptErr ↔
      ∃ i, i + 1 < files.length ∧ (processBuffer md5 (files.getD i [])).isAbrupt = true) ∧
    ((∀ i, i + 1 < files.length → (processBuffer md5 (files.getD i [])).isAbrupt = false) →
      RecoveryJob.goAux md5 files acc = .ok (acc ++ (files.map (fileSections md5)).join))
  | [], acc, _ => by
    constructor
    · constructor
      · intro h
        simp [RecoveryJob.goAux] at h
      · rintro ⟨i, hi, -⟩
        simp at hi
    · intro _
      simp [RecoveryJob.goAux]
  | f :: rest, acc, hclean => by
    have hcf : (processBuffer md5 f).isClean = true := hclean f (List.mem_cons_self f rest)
    have hclean' : ∀ g ∈ rest, (processBuffer md5 g).isClean = true :=
      fun g hg => hclean g (List.mem_cons_of_mem f hg)
    cases hp : processBuffer md5 f with
    | ok secs =>
      have hstep : RecoveryJob.goAux md5 (f :: rest) acc =
          RecoveryJob.goAux md5 rest (acc ++ secs) := by
        rw [RecoveryJob.goAux]
        simp only [hp]
      obtain ⟨ih1, ih2⟩ := goAux_spec md5 rest (acc ++ secs) hclean'
      constructor
      · rw [hstep, ih1]
        constructor
        · rintro ⟨i, hi, habr⟩
          exact ⟨i + 1, by simpa using Nat.succ_lt_succ hi, by simpa using habr⟩
        · rintro ⟨i, hi, habr⟩
          cases i with
          | zero =>
            rw [List.getD_cons_zero, hp] at habr
            exact absurd habr (by simp [FileOutcome.isAbrupt])
          | succ j =>
            refine ⟨j, by simpa using Nat.lt_of_succ_lt_succ hi, ?_⟩
            rw [List.getD_cons_succ] at habr
            exact habr
      · intro hno
        rw [hstep, ih2]
        · have hsecs : fileSections md5 f = secs := by
            simp [fileSections, hp]
          simp [hsecs]
        · intro i hi
          have := hno (i + 1) (by simpa using Nat.succ_lt_succ hi)
          rw [List.getD_cons_succ] at this
          exact this
    | abrupt secs =>
      cases rest with
      | nil =>
        have hstep : RecoveryJob.goAux md5 [f] acc = .ok (acc ++ secs) := by
          rw [RecoveryJob.goAux]
          simp only [hp, if_true]
          rw [RecoveryJob.goAux]
        constructor
        · rw [hstep]
          constructor
          · intro h
            exact RecoverResult.noConfusion h
          · rintro ⟨i, hi, -⟩
            simp at hi
        · intro _
          rw [hstep]
          have hsecs : fileSections md5 f = secs := by
            simp [fileSections, hp]
          simp [hsecs]
      | cons g rest2 =>
        have hstep : RecoveryJob.goAux md5 (f :: g :: rest2) acc = .abruptErr := by
          rw [RecoveryJob.goAux]
          simp only [hp]
          rw [if_neg (by simp)]
        constructor
        · rw [hstep]
          constructor
          · intro _
            exact ⟨0, by simp, by rw [List.getD_cons_zero, hp]; rfl⟩
          · intro _
            rfl
        · intro hno
          have h0 := hno 0 (by simp)
          rw [List.getD_cons_zero, hp] at h0
          exact absurd h0 (by simp [FileOutcome.isAbrupt])
    | fail c secs =>
      rw [hp] at hcf
      exact absurd hcf (by simp [FileOutcome.isClean])
    | headerEof =>
      rw [hp] at hcf
      exact absurd hcf (by simp [FileOutcome.isClean])
    | fuelOut =>
      rw [hp] at hcf
      exact absurd hcf (by simp [FileOutcome.isClean])

/-- C4 (amended): provided no journal file raises a different propagating
error (bad header, checksum mismatch, malformed entry — such an error
preempts the whole run), recovery fails with the `13535` "abrupt journal
file end" error if and only if some file other than the last ends abruptly
(`BufReader` exhaustion mid-section); an abrupt end on the last file alone
is tolerated, the incomplete trailing section is discarded, and every
complete section of every file is applied. -/
theorem recover_abrupt_end_handling (md5 : Bytes → Bytes) (files : List Bytes)
    (hclean : ∀ f ∈ files, (processBuffer md5 f).isClean = true) :
    (RecoveryJob.go md5 files = .abruptErr ↔
      ∃ i, i + 1 < files.length ∧ (processBuffer md5 (files.getD i [])).isAbrupt = true) ∧
    ((∀ i, i + 1 < files.length → (processBuffer md5 (files.getD i [])).isAbrupt = false) →
      RecoveryJob.go md5 files = .ok ((files.map (fileSections md5)).join)) := by
  obtain ⟨h1, h2⟩ := goAux_spec md5 files [] hclean
  refine ⟨h1, fun hno => ?_⟩
  have := h2 hno
  simpa using this

end MongoDur

namespace Mongo2d

/-- Witness for `geoHopper_nearest_result_set`: five candidates (three
qualifying) against `_max = 2`, `maxDistance = 10`. -/
theorem geoHopper_nearest_result_set_witness :
    (∀ c ∈ [Candidate.mk true [5], Candidate.mk true [3, 20], Candidate.mk true [12],
        Candidate.mk false [1], Candidate.mk true [7]], ∀ d ∈ c.dists, 0 ≤ d) ∧
    ((GeoHopper.run 2 10 [Candidate.mk true [5], Candidate.mk true [3, 20],
        Candidate.mk true [12], Candidate.mk false [1], Candidate.mk true [7]]).length ≤ 2 ∧
      (GeoHopper.run 2 10 [Candidate.mk true [5], Candidate.mk true [3, 20],
        Candidate.mk true [12], Candidate.mk false [1], Candidate.mk true [7]]).Sorted (· ≤ ·) ∧
      (∀ d ∈ GeoHopper.run 2 10 [Candidate.mk true [5], Candidate.mk true [3, 20],
        Candidate.mk true [12], Candidate.mk false [1], Candidate.mk true [7]], d ≤ 10) ∧
      (GeoHopper.run 2 10 [Candidate.mk true [5], Candidate.mk true [3, 20],
        Candidate.mk true [12], Candidate.mk false [1], Candidate.mk true [7]]).length =
        min 2 ([Candidate.mk true [5], Candidate.mk true [3, 20], Candidate.mk true [12],
          Candidate.mk false [1], Candidate.mk true [7]].countP
            (fun c => decide (qualifies 10 c)))) :=
  ⟨by norm_num [List.forall_mem_cons],
    geoHopper_nearest_result_set 2 10 _ (by norm_num [List.forall_mem_cons])⟩

end Mongo2d

namespace MongoDur

set_option maxRecDepth 400000 in
/-- Witness for `recover_abrupt_end_handling`: two files, the last abrupt;
the run is tolerated and applies the one complete section. -/
theorem recover_abrupt_end_handling_witness :
    (∀ f ∈ [fileOneSection, fileAbrupt], (processBuffer md5zero f).isClean = true) ∧
    ((RecoveryJob.go md5zero [fileOneSection, fileAbrupt] = .abruptErr ↔
      ∃ i, i + 1 < [fileOneSection, fileAbrupt].length ∧
        (processBuffer md5zero ([fileOneSection, fileAbrupt].getD i [])).isAbrupt = true) ∧
    ((∀ i, i + 1 < [fileOneSection, fileAbrupt].length →
        (processBuffer md5zero ([fileOneSection, fileAbrupt].getD i [])).isAbrupt = false) →
      RecoveryJob.go md5zero [fileOneSection, fileAbrupt] =
        .ok (([fileOneSection, fileAbrupt].map (fileSections md5zero)).join))) :=
  ⟨by decide, recover_abrupt_end_handling md5zero [fileOneSection, fileAbrupt] (by decide)⟩

set_option maxRecDepth 400000 in
/-- C4 counterexample: the file at index 1 (not the last) ends abruptly,
yet recovery does not fail with the abrupt-end error — the bad header of
file 0 raises `13536` first — so "fails with abrupt end iff some non-last
file ends abruptly" is false as stated. -/
theorem recover_abrupt_iff_counterexample :
    (processBuffer md5zero ([fileBadHeader, fileAbrupt, fileOneSection].getD 1 [])).isAbrupt
      = true ∧
    1 + 1 < [fileBadHeader, fileAbrupt, fileOneSection].length ∧
    RecoveryJob.go md5zero [fileBadHeader, fileAbrupt, fileOneSection] = .failCode 13536 ∧
    RecoveryJob.go md5zero [fileBadHeader, fileAbrupt, fileOneSection] ≠ .abruptErr := by
  decide

/-- C5 (amended): on reaching the footer word at offset `q`, the iterator
recomputes the digest over the section bytes `[sectHead, q)` — up to the
*start of the footer*, which is 4 bytes before the footer's hash field (the
footer's leading sentinel word is not hashed) — and the section is rejected
with checksum error `13594` exactly when the recomputed digest differs from
the 16 recorded hash bytes at `[q + 4, q + 20)`. -/
theorem footer_checksum_range (md5 : Bytes → Bytes) (data : Bytes) (h0 q : ℕ)
    (db : Option Bytes) (hw : readU32 data q = some OpCode_Footer) :
    (nextCore md5 data h0 q db = .err 13594 ↔
      md5 (slice data h0 q) ≠ slice data (q + 4) (q + 20)) := by
  have hred : nextCore md5 data h0 q db =
      (if md5 (slice data h0 q) ≠ slice data (q + 4) (q + 20) then .err 13594
       else if data.length < q + FooterSize then .eof
       else if data.length < alignUp Alignment (q + FooterSize) then .eof
       else .endSection (IterState.mk data (alignUp Alignment (q + FooterSize)) none db)) := by
    unfold nextCore
    simp only [hw]
    rw [if_pos trivial]
  rw [hred]
  by_cases hmis : md5 (slice data h0 q) ≠ slice data (q + 4) (q + 20)
  · rw [if_pos hmis]
    exact ⟨fun _ => hmis, fun _ => rfl⟩
  · rw [if_neg hmis]
    constructor
    · intro hc
      exfalso
      split_ifs at hc <;> exact NextResult.noConfusion hc
    · intro hc
      exact absurd hc hmis

set_option maxRecDepth 400000 in
/-- Witness for `footer_checksum_range` on the concrete one-section file
(its zero hash matches `md5zero`, so the section is accepted). -/
theorem footer_checksum_range_witness :
    readU32 fileOneSection 16 = some OpCode_Footer ∧
    (nextCore md5zero fileOneSection 8 16 none = .err 13594 ↔
      md5zero (slice fileOneSection 8 16) ≠ slice fileOneSection 20 36) :=
  ⟨by decide, footer_checksum_range md5zero fileOneSection 8 16 none (by decide)⟩

set_option maxRecDepth 400000 in
/-- C5 counterexample: the claim reads the hashed range as extending up to
the footer's hash field, i.e. including the footer's 4-byte sentinel word.
With the length-sensitive digest `md5len`, `fileC5` stores the digest of
the code's actual range `[8, 16)`; the iterator accepts the section even
though the digest of the claimed range `[8, 20)` differs from the recorded
hash — so rejection is *not* equivalent to a mismatch over the claimed
range. -/
theorem checksum_range_counterexample :
    readU32 fileC5 16 = some OpCode_Footer ∧
    nextCore md5len fileC5 8 16 none ≠ .err 13594 ∧
    md5len (slice fileC5 8 20) ≠ slice fileC5 20 36 ∧
    md5len (slice fileC5 8 16) = slice fileC5 20 36 := by
  decide

/-- A successful end of section hands the sticky `_lastDbName` through
unchanged. -/
theorem nextCore_end_lastDbName (md5 : Bytes → Bytes) (data : Bytes) (h0 ofs0 : ℕ)
    (db : Option Bytes) (s2 : IterState)
    (h : nextCore md5 data h0 ofs0 db = .endSection s2) : s2.lastDbName = db := by
  unfold nextCore at h
  split at h
  case _ => exact NextResult.noConfusion h
  case _ w hw =>
    split_ifs at h
    · simp only [NextResult.endSection.injEq] at h
      subst h
      rfl
    · split at h <;>
        first
          | exact NextResult.noConfusion h
          | (split_ifs at h <;> exact NextResult.noConfusion h)
    · split at h <;>
        first
          | exact NextResult.noConfusion h
          | (split at h <;>
               first
                 | exact NextResult.noConfusion h
                 | exact absurd h (fun hh => nextTail_no_endSection _ _ _ _ _ _ hh))
    · exact absurd h (fun hh => nextTail_no_endSection _ _ _ _ _ _ hh)

/-- C6 (amended): the sticky database-name context is *not* reset at section
boundaries: the footer branch of `JournalIterator::next` clears `_sectHead`
but leaves `_lastDbName` untouched, so a `DbContext` from an earlier section
keeps applying to basic-write entries of later sections of the same file. -/
theorem footer_preserves_lastDbName (md5 : Bytes → Bytes) (s s2 : IterState)
    (h : next md5 s = .endSection s2) : s2.lastDbName = s.lastDbName := by
  unfold next at h
  split at h <;> exact nextCore_end_lastDbName _ _ _ _ _ _ h

set_option maxRecDepth 400000 in
/-- Witness for `footer_preserves_lastDbName`: a footer crossed with a live
db context `"ab"` keeps it. -/
theorem footer_preserves_lastDbName_witness :
    next md5zero (IterState.mk fileOneSection 8 none (some [97, 98])) =
      .endSection (IterState.mk fileOneSection 48 none (some [97, 98])) ∧
    (IterState.mk fileOneSection 48 none (some [97, 98])).lastDbName =
      (IterState.mk fileOneSection 8 none (some [97, 98])).lastDbName :=
  ⟨by decide, footer_preserves_lastDbName md5zero _ _ (by decide)⟩

set_option maxRecDepth 400000 in
/-- C6 counterexample: in `fileTwoSections`, section one establishes the db
context `"ab"` (bytes `[97, 98]`); section two contains a basic write with
no `DbContext` of its own, yet the parsed entry is attributed to `"ab"`
from the earlier section — per the claim its db name would not come from an
earlier section's `DbContext`. -/
theorem dbcontext_cross_section_counterexample :
    processBuffer md5zero fileTwoSections =
      .ok [[ParsedEntry.basicWrite (some [97, 98]) 0 false 0 [42]],
        [ParsedEntry.basicWrite (some [97, 98]) 0 false 0 [42]]] ∧
    (some ([97, 98] : Bytes)) ≠ (none : Option Bytes) := by
  decide

end MongoDur
